import Mathlib

/-!
Shallow embedding of the `climan` command-line argument parser
(`src/index.ts`) and verification of its specification.

JavaScript values flowing through the parser (strings, numbers, booleans,
arrays, `null`, `undefined`) are modelled by the inductive type `CVal`.
Parser callbacks `(value: string) => any` become Lean functions
`String → CVal`, with `CVal.null` playing the role of the `null` reject
sentinel.  The mutable `options` object becomes an insertion-ordered
association list with JavaScript object update semantics.  String
truthiness (`""` is falsy) is modelled explicitly wherever the source
relies on it.  Character handling is ASCII, which covers every string that
appears in the source and in the claims.
-/

/-- Model of a JavaScript runtime value as used by the parser. -/
inductive CVal where
  | str : String → CVal
  | int : Int → CVal
  | rat : Rat → CVal
  | nan : CVal
  | bool : Bool → CVal
  | list : List CVal → CVal
  | null : CVal
  | undef : CVal

/-- JavaScript truthiness of an optional string field: the field is truthy
iff it is present and non-empty (`""` is falsy). -/
def truthyStr : Option String → Bool
  | some s => !(s == "")
  | none => false

/-- The `options` accumulator `{[key: string]: any}`: an insertion-ordered
string-keyed map. -/
abbrev OptMap := List (String × CVal)

/-- Property read `options[k]`: `none` models `undefined`. -/
def jsGet (m : OptMap) (k : String) : Option CVal :=
  (m.find? (fun p => p.1 == k)).map (fun p => p.2)

/-- Membership test `k in options`. -/
def jsHas (m : OptMap) (k : String) : Bool :=
  m.any (fun p => p.1 == k)

/-- Property write `options[k] = v`: updates the value in place if the key
exists, otherwise appends a new entry. -/
def jsSet (m : OptMap) (k : String) (v : CVal) : OptMap :=
  if m.any (fun p => p.1 == k) then
    m.map (fun p => if p.1 == k then (k, v) else p)
  else
    m ++ [(k, v)]

/-! ## Name codec (`toCamel` / `fromCamel`) -/

/-- ASCII model of JavaScript `toUpperCase` on a single character. -/
def jsToUpper (c : Char) : Char :=
  if 97 ≤ c.toNat && c.toNat ≤ 122 then Char.ofNat (c.toNat - 32) else c

/-- ASCII model of JavaScript `toLowerCase` on a single character. -/
def jsToLower (c : Char) : Char :=
  if 65 ≤ c.toNat && c.toNat ≤ 90 then Char.ofNat (c.toNat + 32) else c

/-- `str.replace` with the global regex `-.` (hyphen then any character)
replacing each match `m` by `m[1].toUpperCase()`, on the character list:
each hyphen followed by some character is removed and that character is
upper-cased; a trailing lone hyphen is left alone. -/
def toCamelAux : List Char → List Char
  | [] => []
  | c :: rest =>
    if c = '-' then
      match rest with
      | [] => ['-']
      | c2 :: rest2 => jsToUpper c2 :: toCamelAux rest2
    else c :: toCamelAux rest

/-- `str.replace(/[A-Z]/g, m => "-" + m.toLowerCase())`. -/
def fromCamelAux : List Char → List Char
  | [] => []
  | c :: rest =>
    if 65 ≤ c.toNat && c.toNat ≤ 90 then '-' :: jsToLower c :: fromCamelAux rest
    else c :: fromCamelAux rest

/-- `toCamel` from the source: external hyphenated form to internal camel case. -/
def toCamel (s : String) : String := ⟨toCamelAux s.data⟩

/-- `fromCamel` from the source: internal camel case to external hyphenated form. -/
def fromCamel (s : String) : String := ⟨fromCamelAux s.data⟩

/-! ## Value parsers (`CliMan.parsers`) -/

/-- JavaScript regex `\d`. -/
def isDigit (c : Char) : Bool := 48 ≤ c.toNat && c.toNat ≤ 57

/-- Decimal value of a digit list. -/
def digitsToNat (l : List Char) : Nat :=
  l.foldl (fun a c => a * 10 + (c.toNat - 48)) 0

/-- Consume an optional leading sign, returning the sign as `1` or `-1`. -/
def parseSign : List Char → Int × List Char
  | '+' :: rest => (1, rest)
  | '-' :: rest => (-1, rest)
  | l => (1, l)

/-- Full-string match of `/^[+-]?\d+$/`. -/
def intMatch (s : String) : Bool :=
  let l := (parseSign s.data).2
  !l.isEmpty && l.all isDigit

/-- `CliMan.parsers.integer`: on a full match of `/^[+-]?\d+$/` return
`parseInt(value, 10)`, otherwise `null`. -/
def CliMan.parsers.integer (value : String) : CVal :=
  let (sg, l) := parseSign value.data
  if !l.isEmpty && l.all isDigit then .int (sg * digitsToNat l) else .null

/-- First alternative of the `number` regex, `^[+-]?[.]\d+` : anchored at
the start of the string only, so anything may follow the digits. -/
def numAlt1 (l : List Char) : Bool :=
  match (parseSign l).2 with
  | '.' :: rest =>
    match rest with
    | c :: _ => isDigit c
    | [] => false
  | _ => false

/-- Second alternative of the `number` regex, `[+-]?\d+([.]\d+)?$` :
anchored at the end of the string only; this tests whether a given tail of
the string matches it completely. -/
def numAlt2Full (l : List Char) : Bool :=
  let l2 := (parseSign l).2
  let ds := l2.takeWhile isDigit
  let rest := l2.dropWhile isDigit
  !ds.isEmpty &&
    (match rest with
     | [] => true
     | '.' :: rest2 => !rest2.isEmpty && rest2.all isDigit
     | _ => false)

/-- Truthiness of `value.match(/^[+-]?[.]\d+|[+-]?\d+([.]\d+)?$/)`.
The `^` binds only to the first alternative and the `$` only to the
second, so the regex matches iff the first alternative matches at the
start of the string or the second matches some tail of it. -/
def numberMatch (s : String) : Bool :=
  numAlt1 s.data || s.data.tails.any numAlt2Full

/-- The exact rational value of a parsed JavaScript numeric literal:
sign, integer digits, fractional digits, and the remaining characters
from which an optional exponent (`e`/`E`, optional sign, digits) is
consumed.  The value is `sign * ip.fp * 10 ^ exponent`. -/
def floatVal (sg : Int) (ip fp : List Char) (rest : List Char) : Rat :=
  let ep : Int × List Char :=
    match rest with
    | 'e' :: r2 => let (es, r3) := parseSign r2; (es, r3.takeWhile isDigit)
    | 'E' :: r2 => let (es, r3) := parseSign r2; (es, r3.takeWhile isDigit)
    | _ => (1, [])
  let e : Int := (if ep.2.isEmpty then 0 else ep.1 * digitsToNat ep.2) - fp.length
  let mant : Int := sg * digitsToNat (ip ++ fp)
  if 0 ≤ e then mkRat (mant * ((10 : Nat) ^ e.toNat : Nat)) 1
  else mkRat mant ((10 : Nat) ^ (-e).toNat)

/-- JavaScript `parseFloat`: skip leading whitespace, then parse the
longest prefix of the form `[+-]?(\d+(\.\d*)?|\.\d+)(e[+-]?\d+)?`;
`none` models `NaN` (no numeric prefix at all). -/
def jsParseFloat (s : String) : Option Rat :=
  let l := s.data.dropWhile (fun c => c == ' ' || c == '\t' || c == '\n' || c == '\r')
  let (sg, l1) := parseSign l
  let ip := l1.takeWhile isDigit
  let r := l1.dropWhile isDigit
  if ip.isEmpty then
    match r with
    | '.' :: r1 =>
      let fp := r1.takeWhile isDigit
      let r2 := r1.dropWhile isDigit
      if fp.isEmpty then none else some (floatVal sg ip fp r2)
    | _ => none
  else
    match r with
    | '.' :: r1 =>
      let fp := r1.takeWhile isDigit
      let r2 := r1.dropWhile isDigit
      some (floatVal sg ip fp r2)
    | _ => some (floatVal sg ip [] r)

/-- `CliMan.parsers.number`: if the regex matches, return
`parseFloat(value)` (possibly `NaN`), otherwise `null`. -/
def CliMan.parsers.number (value : String) : CVal :=
  if numberMatch value then
    match jsParseFloat value with
    | some q => .rat q
    | none => .nan
  else .null

/-- Numeric view of a parser result for the comparisons in `range`;
`none` for values whose comparisons with numbers are always false. -/
def cvalNum : CVal → Option Rat
  | .int n => some (n : Rat)
  | .rat q => some q
  | _ => none

/-- `CliMan.parsers.range(min, max?, integer)`: delegate to `integer` or
`number`, then require `min <= v` and, when `max` is given, `v < max`;
otherwise `null`.  A `NaN` result fails the comparisons. -/
def CliMan.parsers.range (min : Rat) (max : Option Rat) (integer : Bool)
    (value : String) : CVal :=
  let n := if integer then CliMan.parsers.integer value else CliMan.parsers.number value
  match cvalNum n with
  | some q =>
    if min ≤ q && (match max with | none => true | some mx => q < mx) then n else .null
  | none => .null

/-- `CliMan.parsers.enum(...values)`: the raw string itself when it is
listed, otherwise `null`. -/
def CliMan.parsers.enum (values : List String) (value : String) : CVal :=
  if values.contains value then .str value else .null

/-! ## Specification model (`CliOption`, `CliParameter`, `CliCommand`) -/

/-- An option declaration.  The source expresses the four mutually
exclusive shapes (boolean / handler-valued / default-valued / plain)
through the type system; here we keep one record with every field, with
absent fields at their JavaScript `undefined`/falsy reading.  The opaque
handler callbacks are modelled by the boolean `handler` flag recording
whether one is attached. -/
structure CliOption where
  name : String
  symbol : Option String := none
  help : Option String := none
  boolean : Bool := false
  handler : Bool := false
  valueName : Option String := none
  parser : Option (String → CVal) := none
  default : Option String := none
  repeatable : Bool := false
  required : Bool := false

/-- A positional parameter declaration of an action command. -/
structure CliParameter where
  name : String
  help : Option String := none
  parser : Option (String → CVal) := none
  default : Option String := none
  repeatable : Bool := false
  optional : Bool := false

/-- A command-tree node: a `sub` command owning child commands, or an
`action` command owning positional parameters and a handler (the handler
callback itself is opaque and therefore not carried). -/
inductive CliCommand where
  | sub : (name : String) → (help : Option String) → (extendedHelp : Option String) →
      (options : Option (List CliOption)) → (commands : List CliCommand) → CliCommand
  | action : (name : String) → (help : Option String) → (extendedHelp : Option String) →
      (options : Option (List CliOption)) → (parameters : Option (List CliParameter)) →
      CliCommand

/-- `command.name`. -/
def cmdName : CliCommand → String
  | .sub n _ _ _ _ => n
  | .action n _ _ _ _ => n

/-- `command.help`. -/
def cmdHelp : CliCommand → Option String
  | .sub _ h _ _ _ => h
  | .action _ h _ _ _ => h

/-- `command.extendedHelp`. -/
def cmdExtendedHelp : CliCommand → Option String
  | .sub _ _ e _ _ => e
  | .action _ _ e _ _ => e

/-- `command.options`. -/
def cmdOptions : CliCommand → Option (List CliOption)
  | .sub _ _ _ os _ => os
  | .action _ _ _ os _ => os

/-- Truthiness of `(command as ActionCommand).handler`: an action command
always carries a handler, a sub command never does. -/
def isAction : CliCommand → Bool
  | .sub _ _ _ _ _ => false
  | .action _ _ _ _ _ => true

/-- `(command as SubCommand).commands` (`none` models `undefined`). -/
def subCommands : CliCommand → Option (List CliCommand)
  | .sub _ _ _ _ cs => some cs
  | .action _ _ _ _ _ => none

/-- `(command as ActionCommand).parameters` (`none` models `undefined`,
which is also what a sub command yields). -/
def actionParameters : CliCommand → Option (List CliParameter)
  | .sub _ _ _ _ _ => none
  | .action _ _ _ _ ps => ps

/-! ## Help renderer -/

/-- `padEnd(padding, " ")` on ASCII strings. -/
def padEnd (s : String) (n : Nat) : String :=
  s ++ ⟨List.replicate (n - s.length) ' '⟩

/-- `helpOption` from the source: the rendered signature of one option. -/
def helpOption (o : CliOption) : String :=
  let base := (if truthyStr o.symbol then "-" ++ o.symbol.getD "" ++ ", " else "") ++
    "--" ++ fromCamel o.name
  if o.boolean then base
  else
    let value := "<" ++ (if truthyStr o.valueName then o.valueName.getD "" else "value") ++
      (if truthyStr o.default then "=" ++ o.default.getD "" else "") ++ ">" ++
      (if o.repeatable then ", +" else "")
    base ++ " " ++ value

/-- `helpParameter` from the source: the rendered signature of one
positional parameter. -/
def helpParameter (p : CliParameter) : String :=
  let value := fromCamel p.name ++ (if truthyStr p.default then "=" ++ p.default.getD "" else "")
  (if p.optional || truthyStr p.default then "[" ++ value ++ "]" else "<" ++ value ++ ">") ++
    (if p.repeatable then "+" else "")

/-- One iteration of the inner loop of `helpOptions`: required options are
pushed onto the shared first group, the rest onto the own pair
list, in declaration order. -/
def nodePairs (os : List CliOption) : List (String × String) × List (String × String) :=
  os.foldl
    (fun acc o =>
      let pr := (helpOption o, o.help.getD "")
      if o.required then (acc.1 ++ [pr], acc.2) else (acc.1, acc.2 ++ [pr]))
    ([], [])

/-- The group label chosen by `helpOptions` for the node at index `i` of
the path (`lastIdx` is the index of the current node). -/
def groupLabel (i : Nat) (lastIdx : Nat) (c : CliCommand) : String :=
  if i == lastIdx then "Options"
  else if i == 0 then "Global options"
  else "Inherited options (" ++ fromCamel (cmdName c) ++ ")"

/-- The outer loop of `helpOptions`, running over `(index, command)` pairs
in scan order (current node first, root last).  Returns the accumulated
required pairs, the non-required groups in push order, and the maximal
signature length seen (the padding before capping). -/
def helpGroupsAux (lastIdx : Nat) :
    List (Nat × CliCommand) → List (String × String) × List (String × List (String × String)) × Nat
  | [] => ([], [], 0)
  | (i, c) :: rest =>
    let (reqRest, groupsRest, padRest) := helpGroupsAux lastIdx rest
    match cmdOptions c with
    | none => (reqRest, groupsRest, padRest)
    | some os =>
      let (req, pairs) := nodePairs os
      let pad := os.foldl (fun a o => max (helpOption o).length a) 0
      let groups :=
        if pairs.length != 0 then (groupLabel i lastIdx c, pairs) :: groupsRest else groupsRest
      (req ++ reqRest, groups, max pad padRest)

/-- The scan order of `helpOptions`: the path decorated with indices,
current node first. -/
def pathScan (path : List CliCommand) : List (Nat × CliCommand) :=
  path.enum.reverse

/-- The list of option groups produced by `helpOptions`: the combined
required group first (dropped when empty), then the per-node groups in
scan order. -/
def helpGroups (path : List CliCommand) : List (String × List (String × String)) :=
  let (req, groups, _) := helpGroupsAux (path.length - 1) (pathScan path)
  if req.length == 0 then groups else ("Required options", req) :: groups

/-- `helpOptions` from the source: the rendered option blocks. -/
def helpOptionsStr (path : List CliCommand) : String :=
  let (req, groups0, pad0) := helpGroupsAux (path.length - 1) (pathScan path)
  let groups := if req.length == 0 then groups0 else ("Required options", req) :: groups0
  let padding := min pad0 80
  groups.foldl
    (fun out g =>
      out ++ "\n\n" ++ g.1 ++ ":\n" ++
        String.intercalate "\n"
          (g.2.map (fun pr => "  " ++ padEnd pr.1 padding ++ " : " ++ pr.2)))
    ""

/-- `helpCommand` from the source: the rendered signature of a command. -/
def helpCommand (c : CliCommand) : String :=
  if isAction c then
    match actionParameters c with
    | some ps => fromCamel (cmdName c) ++ " " ++ String.intercalate " " (ps.map helpParameter)
    | none => fromCamel (cmdName c)
  else fromCamel (cmdName c) ++ " (...)"

/-- `help` from the source: the full help text for a path.  The source
indexes `path[path.length - 1]` unconditionally; an empty path (which the
library itself never produces) is mapped to the empty string. -/
def helpStr (path : List CliCommand) : String :=
  match path.getLast? with
  | none => ""
  | some command =>
    let usage := "usage: " ++
      (if path.length > 1 then
        String.intercalate " " (path.dropLast.map (fun c => fromCamel (cmdName c))) ++ " "
      else "") ++ helpCommand command
    let o1 := usage ++
      (if truthyStr (cmdHelp command) then "\n\n" ++ (cmdHelp command).getD "" else "") ++
      (if truthyStr (cmdExtendedHelp command) then "\n\n" ++ (cmdExtendedHelp command).getD ""
       else "")
    let o2 := o1 ++
      (match actionParameters command with
       | some ps =>
         let padding := ps.foldl (fun a b => max a (fromCamel b.name).length) 0
         "\n\nParameters:\n" ++
           String.intercalate "\n"
             (ps.map (fun p => "  " ++ padEnd (fromCamel p.name) padding ++ " : " ++
               p.help.getD ""))
       | none => "")
    let o3 := o2 ++
      (match subCommands command with
       | some cmds =>
         let pairs := cmds.map (fun c => (helpCommand c, (cmdHelp c).getD ""))
         let padding := pairs.foldl (fun a b => max a b.1.length) 0
         "\n\nCommands:\n" ++
           String.intercalate "\n"
             (pairs.map (fun x => "  " ++ padEnd x.1 padding ++ " : " ++ x.2))
       | none => "")
    o3 ++ helpOptionsStr path

/-! ## Resolver (`parserRun`) -/

/-- The terminal outcome of one parse.  The handler callbacks are
external collaborators, so invoking one is recorded as a result value:
`handled` for a short-circuiting option handler (option name, value
passed — `none` for the handler of a boolean option — and the path),
`done` for the leaf handler (positional values, options map, path),
`err` for a thrown `CliParseError` (path and message, `""` for the
message-less `Incomplete` error), and `typeError` for the JavaScript
`TypeError` raised by pushing onto a non-array value (reachable only
from configurations that violate the documented shape exclusivity). -/
inductive RunResult where
  | handled : String → Option CVal → List CliCommand → RunResult
  | done : List CVal → OptMap → List CliCommand → RunResult
  | err : List CliCommand → String → RunResult
  | typeError : RunResult

/-- Application of an optional parser to a raw token: without a parser the
raw string is the value. -/
def applyParser (p : Option (String → CVal)) (raw : String) : CVal :=
  match p with
  | some f => f raw
  | none => .str raw

/-- Descent priming of one option (the body of the first loop of
`parserRun`): a truthy default is parsed and stored, a repeatable option
gets an empty array, a boolean option without handler gets `false`, and
any other option gets no entry.  The assignment is an unconditional
JavaScript property write. -/
def primeOption (options : OptMap) (o : CliOption) : OptMap :=
  if truthyStr o.default then
    jsSet options o.name (applyParser o.parser (o.default.getD ""))
  else if o.repeatable then
    jsSet options o.name (.list [])
  else if o.boolean && !o.handler then
    jsSet options o.name (.bool false)
  else options

/-- Descent priming of the options of one node. -/
def primeOptions (os : Option (List CliOption)) (options : OptMap) : OptMap :=
  match os with
  | none => options
  | some l => l.foldl primeOption options

/-- Initial value of one positional slot: parsed truthy default, empty
array for repeatable, `undefined` for optional, and the `null` "missing"
marker otherwise. -/
def initParameter (p : CliParameter) : CVal :=
  if truthyStr p.default then applyParser p.parser (p.default.getD "")
  else if p.repeatable then .list []
  else if p.optional then .undef
  else .null

/-- The `parameters` buffer built on entering a node (empty for sub
commands and for action commands without a `parameters` field). -/
def initParameters (c : CliCommand) : List CVal :=
  if isAction c then
    match actionParameters c with
    | some ps => ps.map initParameter
    | none => []
  else []

/-- Long-option lookup: scan the path from the current node back to the
root for the first node declaring an option with the given internal name. -/
def findOptionByName (path : List CliCommand) (name : String) : Option CliOption :=
  path.reverse.findSome? (fun c =>
    (cmdOptions c).bind (fun os => os.find? (fun o => o.name == name)))

/-- Short-option lookup: same scan, matching on `symbol`. -/
def findOptionBySymbol (path : List CliCommand) (sym : String) : Option CliOption :=
  path.reverse.findSome? (fun c =>
    (cmdOptions c).bind (fun os => os.find? (fun o => o.symbol == some sym)))

/-- JavaScript `x.length == 0` on an accumulated option value (an array
in every configuration the type system admits; for a string the length is
its length, for anything else the comparison is false). -/
def jsLenZero : Option CVal → Bool
  | some (.list l) => l.isEmpty
  | some (.str s) => s == ""
  | _ => false

/-- The missing-parameter completion check of `parserRun`: the first slot
still holding the `null` marker, or a repeatable non-optional last slot
with an empty array, yields the error message; `none` means the check
passes. -/
def checkParameters (cmd : CliCommand) (parameters : List CVal) : Option String :=
  match actionParameters cmd with
  | none => none
  | some ps =>
    if ps.length > 0 then
      let indexOfNull := parameters.findIdx? (fun v => match v with | .null => true | _ => false)
      let last := ps.length - 1
      let lastRepMissing :=
        (match ps.get? last with
         | some p => p.repeatable && !p.optional
         | none => false) &&
        (match parameters.get? last with
         | some (.list l) => l.isEmpty
         | _ => false)
      if indexOfNull.isSome || lastRepMissing then
        let idx := match indexOfNull with | some i => i | none => last
        some ("no value provided for required Parameter \"" ++
          fromCamel (((ps.get? idx).map (fun p => p.name)).getD "") ++ "\"")
      else none
    else none

/-- The missing-required-option completion check of `parserRun`: scan the
whole path from the root, and fail on the first `required` option whose
internal name has no entry (or, for repeatables, an empty array). -/
def checkRequired (path : List CliCommand) (options : OptMap) : Option String :=
  path.findSome? (fun c =>
    (cmdOptions c).bind (fun os =>
      os.findSome? (fun o =>
        if o.required && (!jsHas options o.name ||
            (o.repeatable && jsLenZero (jsGet options o.name))) then
          some ("missing required option \"--" ++ fromCamel o.name ++ "\"")
        else none)))

/-- End of input: an action command runs completion validation and then
its handler; a sub command fails with the message-less `Incomplete`
error carrying the path. -/
def finishRun (command : CliCommand) (path : List CliCommand) (options : OptMap)
    (parameters : List CVal) : RunResult :=
  if isAction command then
    match checkParameters command parameters with
    | some msg => .err path msg
    | none =>
      match checkRequired path options with
      | some msg => .err path msg
      | none => .done parameters options path
  else .err path ""

/-- The token loop of `parserRun`.  `descend` abstracts the recursive
`parserRun` call made when a sub-command name is consumed; the loop
itself recurses structurally on the remaining tokens. -/
def runLoop (descend : List String → CliCommand → List CliCommand → OptMap → Option RunResult)
    (args : List String) (command : CliCommand) (path : List CliCommand)
    (options : OptMap) (parameters : List CVal) (cpi : Nat) : Option RunResult :=
  match args with
  | [] => some (finishRun command path options parameters)
  | arg :: rest =>
    match arg.data with
    | '-' :: cs =>
      match
        (match cs with
         | '-' :: cs2 => some (findOptionByName path (toCamel ⟨cs2⟩))
         | [c] => some (findOptionBySymbol path ⟨[c]⟩)
         | _ => none)
      with
      | none => some (.err path ("invalid argument \"" ++ arg ++ "\""))
      | some none => some (.err path ("unknown option \"" ++ arg ++ "\""))
      | some (some option) =>
        if option.boolean then
          if option.handler then some (.handled option.name none path)
          else runLoop descend rest command path (jsSet options option.name (.bool true))
            parameters cpi
        else
          match rest with
          | [] => some (.err path ("option \"" ++ arg ++ "\" requires a value"))
          | raw :: rest2 =>
            match applyParser option.parser raw with
            | .null =>
              some (.err path ("invalid value \"" ++ raw ++ "\" for option \"" ++ arg ++ "\""))
            | value =>
              if option.handler then some (.handled option.name (some value) path)
              else if option.repeatable then
                match jsGet options option.name with
                | some (.list l) =>
                  runLoop descend rest2 command path
                    (jsSet options option.name (.list (l ++ [value]))) parameters cpi
                | _ => some .typeError
              else
                runLoop descend rest2 command path (jsSet options option.name value)
                  parameters cpi
    | _ =>
      match subCommands command with
      | some cmds =>
        match cmds.find? (fun x => cmdName x == toCamel arg) with
        | none => some (.err path ("unrecognized command \"" ++ arg ++ "\""))
        | some next => descend rest next path options
      | none =>
        match actionParameters command with
        | none => some (.err path ("unexpected Parameter \"" ++ arg ++ "\""))
        | some ps =>
          match ps.get? cpi with
          | none => some (.err path ("unexpected Parameter \"" ++ arg ++ "\""))
          | some pspec =>
            match applyParser pspec.parser arg with
            | .null =>
              some (.err path ("invalid value \"" ++ arg ++ "\" for Parameter \"" ++
                fromCamel pspec.name ++ "\""))
            | value =>
              if pspec.repeatable then
                match parameters.get? cpi with
                | some (.list l) =>
                  runLoop descend rest command path options
                    (parameters.set cpi (.list (l ++ [value]))) cpi
                | _ => some .typeError
              else
                runLoop descend rest command path options (parameters.set cpi value) (cpi + 1)

/-- `parserRun`: push the command onto the path, prime its options and
parameters, then run the token loop.  The `fuel` argument bounds the
depth of the recursive descent (the source recursion is bounded by the
depth of the command tree, proved below); `none` models running out of
fuel and never occurs for sufficient fuel. -/
def parserRun : Nat → List String → CliCommand → List CliCommand → OptMap → Option RunResult
  | 0, _, _, _, _ => none
  | Nat.succ fuel, args, command, path, options =>
    let path := path ++ [command]
    let options := primeOptions (cmdOptions command) options
    let parameters := initParameters command
    runLoop (parserRun fuel) args command path options parameters 0

/-- Depth of a command tree: the maximal number of nodes on a root-to-node
chain. -/
def cmdDepth : CliCommand → Nat
  | .action _ _ _ _ _ => 1
  | .sub _ _ _ _ cmds => 1 + ((cmds.attach.map (fun c => cmdDepth c.1)).foldr max 0)
decreasing_by
  have := List.sizeOf_lt_of_mem c.2
  simp only [CliCommand.sub.sizeOf_spec]
  omega

/-- A console line written by the wrapped run mode. -/
inductive OutEvent where
  | errLine : String → OutEvent
  | info : String → OutEvent

/-- The wrapped run mode `CliMan.run`: run the parser and, on a
`CliParseError`, write `error: <message>` (only when the message is
non-empty) followed by the rendered help; any other outcome writes
nothing (handler invocations are external effects).  The fuel
`cmdDepth config` is sufficient and exact by the termination theorem. -/
def CliMan.runEvents (config : CliCommand) (args : List String) : List OutEvent :=
  match parserRun (cmdDepth config) args config [] [] with
  | some (.err p m) =>
    (if !(m == "") then [.errLine ("error: " ++ m ++ "\n")] else []) ++ [.info (helpStr p)]
  | _ => []

/-! ## Concrete command trees used by the claims -/

/-- The leaf `tree` of the concrete scenario: option `type` (enum
pine/oak/maple/willow, default `pine`) and option `count` (range `[1,10)`
integer, default `1`). -/
def c1Tree : CliCommand := .action "tree" none none
  (some [ { name := "type", symbol := some "t", valueName := some "TYPE",
            default := some "pine",
            parser := some (CliMan.parsers.enum ["pine", "oak", "maple", "willow"]) },
          { name := "count", default := some "1",
            parser := some (CliMan.parsers.range 1 (some 10) true) } ])
  none

/-- The branch `add` of the concrete scenario, declaring the required
integer option `sectorId` with symbol `s`. -/
def c1Add : CliCommand := .sub "add" none none
  (some [ { name := "sectorId", symbol := some "s",
            parser := some CliMan.parsers.integer, required := true } ])
  [c1Tree]

/-- The root of the concrete scenario, whose single child is `add`. -/
def c1Root : CliCommand := .sub "forest" none none none [c1Add]

/-- The shape the specification claims for `number`: the whole string is
an optional sign followed by either a leading-dot decimal or an integer
with an optional fractional part. -/
def specNumberShape (s : String) : Bool :=
  let l := (parseSign s.data).2
  match l with
  | '.' :: r => !r.isEmpty && r.all isDigit
  | _ =>
    let ds := l.takeWhile isDigit
    let rest := l.dropWhile isDigit
    !ds.isEmpty &&
      (match rest with
       | [] => true
       | '.' :: r2 => !r2.isEmpty && r2.all isDigit
       | _ => false)

/-- Does descent priming write an entry for this option?  True for the
three initialising shapes: truthy default, repeatable, or boolean without
handler. -/
def primesEntry (o : CliOption) : Bool :=
  truthyStr o.default || o.repeatable || (o.boolean && !o.handler)

/-- The value written by descent priming for an option with
`primesEntry`. -/
def primeValue (o : CliOption) : CVal :=
  if truthyStr o.default then applyParser o.parser (o.default.getD "")
  else if o.repeatable then .list []
  else .bool false

/-- The value the last initialising declaration of `name` in an option
list primes, if any: later declarations overwrite earlier ones. -/
def primedValueAfter (os : List CliOption) (name : String) : Option CVal :=
  match os with
  | [] => none
  | o :: rest =>
    match primedValueAfter rest name with
    | some v => some v
    | none =>
      if o.name == name && primesEntry o then some (primeValue o) else none

/-- Tree for the C3 counterexample: the root declares a plain valued
option `x`, its child leaf declares an option `x` with default `"d"`. -/
def c3Leaf : CliCommand := .action "c" none none
  (some [ { name := "x", default := some "d" } ]) none

/-- Root of the C3 counterexample tree. -/
def c3Root : CliCommand := .sub "r" none none
  (some [ { name := "x" } ]) [c3Leaf]

/-- Leaf for the C4 counterexample: option `x` has default `"bad"` and an
enum parser that rejects it. -/
def c4Leaf : CliCommand := .action "cmd" none none
  (some [ { name := "x", default := some "bad",
            parser := some (CliMan.parsers.enum ["good"]) } ]) none

/-- The option of the C4 counterexample on its own: default `"bad"`,
enum parser rejecting it. -/
def c4Option : CliOption :=
  { name := "x", default := some "bad", parser := some (CliMan.parsers.enum ["good"]) }

/-- Leaf for the C4 parameter case: parameter `p` has default `"bad"` and
an enum parser that rejects it. -/
def c4ParamLeaf : CliCommand := .action "cmd" none none none
  (some [ { name := "p", default := some "bad",
            parser := some (CliMan.parsers.enum ["good"]) } ])

/-- Leaf for the C10 scenario: parameter `p` declares the empty-string
default. -/
def c10Leaf : CliCommand := .action "cmd" none none none
  (some [ { name := "p", default := some "" } ])

/-- Number of handler invocations recorded in an outcome: a short-circuit
option handler or the leaf handler, never both. -/
def handlerCount : Option RunResult → Nat
  | some (.handled _ _ _) => 1
  | some (.done _ _ _) => 1
  | _ => 0

/-- A minimal action command used to exercise the completed-parse path. -/
def c7Leaf : CliCommand := .action "go" none none none none

/-- Adjacent characters are not both hyphens (the no-consecutive-hyphens
side condition of the codec round trip). -/
abbrev NoHH : Char → Char → Prop := fun a b => ¬(a = '-' ∧ b = '-')

/-- The rendered (signature, help) pair of one option. -/
def optPairSpec (o : CliOption) : String × String := (helpOption o, o.help.getD "")

/-- As the specification words it: scanning the path from the current node
outward to the root, collect every `required` option into one list, each
appearance once, declaration order preserved within a node. -/
def requiredPairsSpec : List (Nat × CliCommand) → List (String × String)
  | [] => []
  | ic :: rest =>
    (((cmdOptions ic.2).getD []).filter (fun o => o.required)).map optPairSpec ++
      requiredPairsSpec rest

/-- As the specification words it: in the same scan order, each node with
non-required options contributes one group — labeled `Options` for the
current node, `Global options` for the root, and with the name of the
ancestor otherwise — and nodes without non-required options are omitted
entirely. -/
def nonReqGroupsSpec (lastIdx : Nat) :
    List (Nat × CliCommand) → List (String × List (String × String))
  | [] => []
  | ic :: rest =>
    let prs := (((cmdOptions ic.2).getD []).filter (fun o => !o.required)).map optPairSpec
    if prs = [] then nonReqGroupsSpec lastIdx rest
    else
      ((if ic.1 == lastIdx then "Options"
        else if ic.1 == 0 then "Global options"
        else "Inherited options (" ++ fromCamel (cmdName ic.2) ++ ")"), prs) ::
        nonReqGroupsSpec lastIdx rest

/-- The options blocks as described by the specification: the combined
`Required options` group first (omitted when empty), then the per-node
non-required groups in current-to-root order. -/
def specGroups (path : List CliCommand) : List (String × List (String × String)) :=
  let req := requiredPairsSpec (path.enum.reverse)
  (if req = [] then [] else [("Required options", req)]) ++
    nonReqGroupsSpec (path.length - 1) (path.enum.reverse)

theorem msg_ne_empty3 (x y z : String) (hx : x.length ≠ 0) : ¬ (x ++ y ++ z = "") := by
  intro h
  have hlen := congrArg String.length h
  simp only [String.length_append] at hlen
  have h0 : ("" : String).length = 0 := rfl
  rw [h0] at hlen
  omega

theorem msg_ne_empty5 (v w x y z : String) (hv : v.length ≠ 0) :
    ¬ (v ++ w ++ x ++ y ++ z = "") := by
  intro h
  have hlen := congrArg String.length h
  simp only [String.length_append] at hlen
  have h0 : ("" : String).length = 0 := rfl
  rw [h0] at hlen
  omega

theorem runLoop_shape (descend : List String → CliCommand → List CliCommand → OptMap → Option RunResult)
    (command : CliCommand) (path : List CliCommand) :
    ∀ (args : List String) (options : OptMap) (parameters : List CVal) (cpi : Nat),
      (∃ o2 pa2, runLoop descend args command path options parameters cpi =
          some (finishRun command path o2 pa2)) ∨
      (∃ m, runLoop descend args command path options parameters cpi = some (.err path m) ∧
          ¬ m = "") ∨
      (∃ n v, runLoop descend args command path options parameters cpi =
          some (.handled n v path)) ∨
      (runLoop descend args command path options parameters cpi = some .typeError) ∨
      (∃ a c o2, c ∈ (subCommands command).getD [] ∧
          runLoop descend args command path options parameters cpi = descend a c path o2) := by
  suffices h : ∀ (n : Nat) (args : List String), args.length ≤ n →
      ∀ (options : OptMap) (parameters : List CVal) (cpi : Nat),
        (∃ o2 pa2, runLoop descend args command path options parameters cpi =
            some (finishRun command path o2 pa2)) ∨
        (∃ m, runLoop descend args command path options parameters cpi = some (.err path m) ∧
            ¬ m = "") ∨
        (∃ n2 v, runLoop descend args command path options parameters cpi =
            some (.handled n2 v path)) ∨
        (runLoop descend args command path options parameters cpi = some .typeError) ∨
        (∃ a c o2, c ∈ (subCommands command).getD [] ∧
            runLoop descend args command path options parameters cpi = descend a c path o2) by
    intro args options parameters cpi
    exact h args.length args (le_refl _) options parameters cpi
  intro n
  induction n with
  | zero =>
    intro args hl options parameters cpi
    have hnil : args = [] := List.eq_nil_of_length_eq_zero (Nat.le_zero.mp hl)
    subst hnil
    exact Or.inl ⟨options, parameters, rfl⟩
  | succ n ih =>
    intro args hl options parameters cpi
    cases args with
    | nil => exact Or.inl ⟨options, parameters, rfl⟩
    | cons arg rest =>
      rw [runLoop]
      split
      next cs heq =>
        split
        · exact Or.inr (Or.inl ⟨_, rfl, msg_ne_empty3 _ _ _ (by decide)⟩)
        · exact Or.inr (Or.inl ⟨_, rfl, msg_ne_empty3 _ _ _ (by decide)⟩)
        next option heq2 =>
          split
          · split
            · exact Or.inr (Or.inr (Or.inl ⟨_, _, rfl⟩))
            · exact ih rest (by simp at hl; omega) _ _ _
          · split
            · exact Or.inr (Or.inl ⟨_, rfl, msg_ne_empty3 _ _ _ (by decide)⟩)
            next raw rest2 =>
              split
              · exact Or.inr (Or.inl ⟨_, rfl, msg_ne_empty5 _ _ _ _ _ (by decide)⟩)
              · split
                · exact Or.inr (Or.inr (Or.inl ⟨_, _, rfl⟩))
                · split
                  · split
                    · exact ih rest2 (by simp at hl; omega) _ _ _
                    · exact Or.inr (Or.inr (Or.inr (Or.inl rfl)))
                  · exact ih rest2 (by simp at hl; omega) _ _ _
      next heq =>
        split
        next cmds heq2 =>
          split
          · exact Or.inr (Or.inl ⟨_, rfl, msg_ne_empty3 _ _ _ (by decide)⟩)
          next nxt heq3 =>
            refine Or.inr (Or.inr (Or.inr (Or.inr ⟨rest, nxt, options, ?_, rfl⟩)))
            rw [heq2]
            simp only [Option.getD_some]
            exact List.mem_of_find?_eq_some heq3
        · split
          · exact Or.inr (Or.inl ⟨_, rfl, msg_ne_empty3 _ _ _ (by decide)⟩)
          · split
            · exact Or.inr (Or.inl ⟨_, rfl, msg_ne_empty3 _ _ _ (by decide)⟩)
            · split
              · exact Or.inr (Or.inl ⟨_, rfl, msg_ne_empty5 _ _ _ _ _ (by decide)⟩)
              · split
                · split
                  · exact ih rest (by simp at hl; omega) _ _ _
                  · exact Or.inr (Or.inr (Or.inr (Or.inl rfl)))
                · exact ih rest (by simp at hl; omega) _ _ _

theorem checkParameters_ne_empty (cmd : CliCommand) (ps : List CVal) (m : String)
    (h : checkParameters cmd ps = some m) : ¬ m = "" := by
  unfold checkParameters at h
  split at h
  · exact absurd h (by simp)
  · dsimp only at h
    split at h
    · split at h
      · have hm := Option.some.inj h
        exact hm ▸ msg_ne_empty3 _ _ _ (by decide)
      · exact absurd h (by simp)
    · exact absurd h (by simp)

theorem checkRequired_ne_empty (path : List CliCommand) (os : OptMap) (m : String)
    (h : checkRequired path os = some m) : ¬ m = "" := by
  unfold checkRequired at h
  obtain ⟨c, _, hf⟩ := List.exists_of_findSome?_eq_some h
  obtain ⟨os2, _, hf2⟩ := Option.bind_eq_some.mp hf
  obtain ⟨o, _, hif⟩ := List.exists_of_findSome?_eq_some hf2
  split at hif
  · have hm := Option.some.inj hif
    exact hm ▸ msg_ne_empty3 _ _ _ (by decide)
  · exact absurd hif (by simp)

theorem finishRun_eq_done (command : CliCommand) (path : List CliCommand)
    (o2 : OptMap) (pa2 ps : List CVal) (os : OptMap) (p : List CliCommand)
    (h : finishRun command path o2 pa2 = RunResult.done ps os p) :
    isAction command = true ∧ ps = pa2 ∧ os = o2 ∧ p = path ∧
      checkParameters command pa2 = none ∧ checkRequired path o2 = none := by
  unfold finishRun at h
  split at h
  next ha =>
    split at h
    · exact absurd h (by simp)
    next hcp =>
      split at h
      · exact absurd h (by simp)
      next hcr =>
        injection h with h1 h2 h3
        exact ⟨ha, h1.symm, h2.symm, h3.symm, hcp, hcr⟩
  next ha =>
    exact absurd h (by simp)

theorem finishRun_eq_err_empty (command : CliCommand) (path : List CliCommand)
    (o2 : OptMap) (pa2 : List CVal) (p : List CliCommand)
    (h : finishRun command path o2 pa2 = RunResult.err p "") :
    p = path ∧ isAction command = false := by
  unfold finishRun at h
  split at h
  next ha =>
    split at h
    next m hcp =>
      injection h with h1 h2
      exact absurd h2 (checkParameters_ne_empty _ _ _ hcp)
    · split at h
      next m hcr =>
        injection h with h1 h2
        exact absurd h2 (checkRequired_ne_empty _ _ _ hcr)
      · exact absurd h (by simp)
  next ha =>
    injection h with h1 h2
    exact ⟨h1.symm, by simpa using ha⟩

theorem parserRun_resolvedInv : ∀ (fuel : Nat) (args : List String) (c : CliCommand)
    (path : List CliCommand) (opts : OptMap),
    (∀ ps os p, parserRun fuel args c path opts = some (RunResult.done ps os p) →
       ∃ cur, p.getLast? = some cur ∧ isAction cur = true ∧
         checkParameters cur ps = none ∧ checkRequired p os = none) ∧
    (∀ p m, parserRun fuel args c path opts = some (RunResult.err p m) → m = "" →
       ∃ cur, p.getLast? = some cur ∧ isAction cur = false) := by
  intro fuel
  induction fuel with
  | zero =>
    intro args c path opts
    constructor
    · intro ps os p h; exact absurd h (by simp [parserRun])
    · intro p m h; exact absurd h (by simp [parserRun])
  | succ fuel ih =>
    intro args c path opts
    have hsh := runLoop_shape (parserRun fuel) c (path ++ [c]) args
        (primeOptions (cmdOptions c) opts) (initParameters c) 0
    have hpr : parserRun (fuel + 1) args c path opts =
        runLoop (parserRun fuel) args c (path ++ [c]) (primeOptions (cmdOptions c) opts)
          (initParameters c) 0 := rfl
    constructor
    · intro ps os p h
      rw [hpr] at h
      rcases hsh with ⟨o2, pa2, he⟩ | ⟨m, he, hm⟩ | ⟨n2, v, he⟩ | he | ⟨a, c2, o2, hmem, he⟩
      · rw [he] at h
        obtain ⟨ha, h1, h2, h3, hcp, hcr⟩ := finishRun_eq_done _ _ _ _ _ _ _ (Option.some.inj h)
        subst h1; subst h2; subst h3
        exact ⟨c, List.getLast?_concat _, ha, hcp, hcr⟩
      · rw [he] at h; simp at h
      · rw [he] at h; simp at h
      · rw [he] at h; simp at h
      · rw [he] at h; exact (ih a c2 (path ++ [c]) o2).1 ps os p h
    · intro p m h hm
      subst hm
      rw [hpr] at h
      rcases hsh with ⟨o2, pa2, he⟩ | ⟨m2, he, hm2⟩ | ⟨n2, v, he⟩ | he | ⟨a, c2, o2, hmem, he⟩
      · rw [he] at h
        obtain ⟨hp, hact⟩ := finishRun_eq_err_empty _ _ _ _ _ (Option.some.inj h)
        subst hp
        exact ⟨c, List.getLast?_concat _, hact⟩
      · rw [he] at h
        have h2 := Option.some.inj h
        injection h2 with h3 h4
        exact absurd h4 hm2
      · rw [he] at h; simp at h
      · rw [he] at h; simp at h
      · rw [he] at h; exact (ih a c2 (path ++ [c]) o2).2 p "" h rfl

theorem le_foldr_max (a : Nat) (l : List Nat) (h : a ∈ l) : a ≤ l.foldr max 0 := by
  induction l with
  | nil => simp at h
  | cons x xs ih =>
    rcases List.mem_cons.mp h with h | h
    · subst h; simp only [List.foldr_cons]; exact Nat.le_max_left _ _
    · exact le_trans (ih h) (by simp only [List.foldr_cons]; exact Nat.le_max_right _ _)

theorem cmdDepth_pos (c : CliCommand) : 1 ≤ cmdDepth c := by
  cases c <;> simp [cmdDepth]

theorem cmdDepth_child (nm : String) (hp ext : Option String) (os : Option (List CliOption))
    (cmds : List CliCommand) (c : CliCommand) (hc : c ∈ cmds) :
    cmdDepth c < cmdDepth (.sub nm hp ext os cmds) := by
  have h1 : cmdDepth c ∈ cmds.attach.map (fun x => cmdDepth x.1) :=
    List.mem_map.mpr ⟨⟨c, hc⟩, List.mem_attach _ _, rfl⟩
  have h2 := le_foldr_max _ _ h1
  have h3 : cmdDepth (.sub nm hp ext os cmds) =
      1 + (cmds.attach.map (fun x => cmdDepth x.1)).foldr max 0 := by
    simp [cmdDepth]
  omega

theorem subCommands_child_depth (command c2 : CliCommand)
    (hc : c2 ∈ (subCommands command).getD []) : cmdDepth c2 < cmdDepth command := by
  cases command with
  | action nm hp ext os ps => simp [subCommands] at hc
  | sub nm hp ext os cmds =>
    exact cmdDepth_child _ _ _ _ _ _ (by simpa [subCommands] using hc)

theorem parserRun_isSome : ∀ (fuel : Nat) (c : CliCommand), cmdDepth c ≤ fuel →
    ∀ (args : List String) (path : List CliCommand) (opts : OptMap),
      (parserRun fuel args c path opts).isSome := by
  intro fuel
  induction fuel with
  | zero =>
    intro c hd
    have := cmdDepth_pos c
    omega
  | succ fuel ih =>
    intro c hd args path opts
    have hsh := runLoop_shape (parserRun fuel) c (path ++ [c]) args
        (primeOptions (cmdOptions c) opts) (initParameters c) 0
    have hpr : parserRun (fuel + 1) args c path opts =
        runLoop (parserRun fuel) args c (path ++ [c]) (primeOptions (cmdOptions c) opts)
          (initParameters c) 0 := rfl
    rw [hpr]
    rcases hsh with ⟨o2, pa2, he⟩ | ⟨m, he, _⟩ | ⟨n2, v, he⟩ | he | ⟨a, c2, o2, hmem, he⟩ <;>
      rw [he]
    · simp
    · simp
    · simp
    · simp
    · have := subCommands_child_depth c c2 hmem
      exact ih c2 (by omega) a (path ++ [c]) o2

theorem runLoop_congr (d1 d2 : List String → CliCommand → List CliCommand → OptMap → Option RunResult)
    (command : CliCommand) (path : List CliCommand)
    (h : ∀ a c2 o2, c2 ∈ (subCommands command).getD [] → d1 a c2 path o2 = d2 a c2 path o2) :
    ∀ (args : List String) (options : OptMap) (parameters : List CVal) (cpi : Nat),
      runLoop d1 args command path options parameters cpi =
        runLoop d2 args command path options parameters cpi := by
  suffices hs : ∀ (n : Nat) (args : List String), args.length ≤ n →
      ∀ (options : OptMap) (parameters : List CVal) (cpi : Nat),
        runLoop d1 args command path options parameters cpi =
          runLoop d2 args command path options parameters cpi by
    intro args options parameters cpi
    exact hs args.length args (le_refl _) options parameters cpi
  intro n
  induction n with
  | zero =>
    intro args hl options parameters cpi
    have hnil : args = [] := List.eq_nil_of_length_eq_zero (Nat.le_zero.mp hl)
    subst hnil; rfl
  | succ n ih =>
    intro args hl options parameters cpi
    cases args with
    | nil => rfl
    | cons arg rest =>
      simp only [runLoop]
      split
      next cs heq =>
        split
        · rfl
        · rfl
        next option heq2 =>
          split
          · split
            · rfl
            · exact ih rest (by simp at hl; omega) _ _ _
          · split
            · rfl
            next raw rest2 =>
              split
              · rfl
              · split
                · rfl
                · split
                  · split
                    · exact ih rest2 (by simp at hl; omega) _ _ _
                    · rfl
                  · exact ih rest2 (by simp at hl; omega) _ _ _
      next heq =>
        split
        next cmds heq2 =>
          split
          · rfl
          next nxt heq3 =>
            apply h
            rw [heq2]
            simp only [Option.getD_some]
            exact List.mem_of_find?_eq_some heq3
        · split
          · rfl
          · split
            · rfl
            · split
              · rfl
              · split
                · split
                  · exact ih rest (by simp at hl; omega) _ _ _
                  · rfl
                · exact ih rest (by simp at hl; omega) _ _ _

theorem parserRun_fuel_eq : ∀ (f1 f2 : Nat) (c : CliCommand), cmdDepth c ≤ f1 →
    cmdDepth c ≤ f2 → ∀ (args : List String) (path : List CliCommand) (opts : OptMap),
      parserRun f1 args c path opts = parserRun f2 args c path opts := by
  intro f1
  induction f1 with
  | zero =>
    intro f2 c h1
    have := cmdDepth_pos c
    omega
  | succ f1 ih =>
    intro f2 c h1 h2 args path opts
    cases f2 with
    | zero =>
      have := cmdDepth_pos c
      omega
    | succ f2 =>
      show runLoop (parserRun f1) args c (path ++ [c]) (primeOptions (cmdOptions c) opts)
          (initParameters c) 0 =
        runLoop (parserRun f2) args c (path ++ [c]) (primeOptions (cmdOptions c) opts)
          (initParameters c) 0
      apply runLoop_congr
      intro a c2 o2 hmem
      have hlt := subCommands_child_depth c c2 hmem
      exact ih f2 c2 (by omega) (by omega) a (path ++ [c]) o2

/-- C9: the Resolver terminates on every finite token sequence and finite
command tree.  In the embedding the token loop recurses structurally on
the remaining tokens (every iteration consumes at least one token and
each descent passes a strictly shorter remainder), and the recursive
descent is bounded by the tree depth: with any fuel at least `cmdDepth c`
the parse produces a result, and the result does not depend on the fuel. -/
theorem climan_C9 (fuel : Nat) (args : List String) (c : CliCommand)
    (path : List CliCommand) (opts : OptMap) (h : cmdDepth c ≤ fuel) :
    (parserRun fuel args c path opts).isSome ∧
    parserRun fuel args c path opts = parserRun (cmdDepth c) args c path opts :=
  ⟨parserRun_isSome fuel c h args path opts,
   parserRun_fuel_eq fuel (cmdDepth c) c h (le_refl _) args path opts⟩

/-- Witness for C9 at the concrete scenario tree and fuel 3. -/
theorem climan_C9_witness :
    cmdDepth c1Root ≤ 3 ∧
    ((parserRun 3 ["add", "tree"] c1Root [] []).isSome ∧
     parserRun 3 ["add", "tree"] c1Root [] [] =
       parserRun (cmdDepth c1Root) ["add", "tree"] c1Root [] []) :=
  ⟨by simp [cmdDepth, c1Root, c1Add, c1Tree],
   climan_C9 3 ["add", "tree"] c1Root [] [] (by simp [cmdDepth, c1Root, c1Add, c1Tree])⟩

/-- C7: in every parse a handler is invoked at most once — the Resolver
returns a single terminal outcome, so `handlerCount` is at most one and
no token processing follows a handler call — and the leaf handler runs
only when both completion-validation checks passed: a `done` outcome
always carries a path ending in an action command whose
missing-parameter check and whole-path required-option check both
succeeded on exactly the values handed to the handler. -/
theorem climan_C7 (fuel : Nat) (args : List String) (c : CliCommand)
    (path : List CliCommand) (opts : OptMap) :
    handlerCount (parserRun fuel args c path opts) ≤ 1 ∧
    (∀ ps os p, parserRun fuel args c path opts = some (RunResult.done ps os p) →
      ∃ cur, p.getLast? = some cur ∧ isAction cur = true ∧
        checkParameters cur ps = none ∧ checkRequired p os = none) := by
  constructor
  · cases hr : parserRun fuel args c path opts with
    | none => simp [handlerCount]
    | some r => cases r <;> simp [handlerCount]
  · exact (parserRun_resolvedInv fuel args c path opts).1

/-- Witness for C7 at a concrete completed parse. -/
theorem climan_C7_witness :
    ∃ cur, [c7Leaf].getLast? = some cur ∧ isAction cur = true ∧
      checkParameters cur [] = none ∧ checkRequired [c7Leaf] [] = none :=
  (climan_C7 1 [] c7Leaf [] []).2 [] [] [c7Leaf] rfl

/-- C5: reaching end of input while the current node is a Branch fails
with the `Incomplete` error whose message is empty and which carries the
full path; an empty-message error arises only with a Branch as the
current node; and the wrapped run mode writes no `error:` line for an
empty message (help only), while a non-empty message yields the error
line followed by the help text. -/
theorem climan_C5 :
    (∀ (descend : List String → CliCommand → List CliCommand → OptMap → Option RunResult)
        (cmd : CliCommand) (path : List CliCommand) (opts : OptMap) (params : List CVal)
        (cpi : Nat), isAction cmd = false →
        runLoop descend [] cmd path opts params cpi = some (RunResult.err path "")) ∧
    (∀ (fuel : Nat) (args : List String) (cmd : CliCommand) (path : List CliCommand)
        (opts : OptMap) (p : List CliCommand),
        parserRun fuel args cmd path opts = some (RunResult.err p "") →
        ∃ cur, p.getLast? = some cur ∧ isAction cur = false) ∧
    (∀ (config : CliCommand) (args : List String) (p : List CliCommand) (m : String),
        parserRun (cmdDepth config) args config [] [] = some (RunResult.err p m) →
        CliMan.runEvents config args =
          if m = "" then [OutEvent.info (helpStr p)]
          else [OutEvent.errLine ("error: " ++ m ++ "\n"), OutEvent.info (helpStr p)]) := by
  refine ⟨?_, ?_, ?_⟩
  · intro descend cmd path opts params cpi h
    simp [runLoop, finishRun, h]
  · intro fuel args cmd path opts p h
    exact (parserRun_resolvedInv fuel args cmd path opts).2 p "" h rfl
  · intro config args p m h
    unfold CliMan.runEvents
    rw [h]
    by_cases hm : m = ""
    · simp [hm]
    · simp [hm]

/-- Witness for C5: the root branch with no tokens. -/
theorem climan_C5_witness :
    runLoop (fun _ _ _ _ => none) [] c1Root [c1Root] [] [] 0 =
      some (RunResult.err [c1Root] "") ∧
    (∃ cur, [c1Root].getLast? = some cur ∧ isAction cur = false) ∧
    CliMan.runEvents c1Root [] =
      (if ("" : String) = "" then [OutEvent.info (helpStr [c1Root])]
       else [OutEvent.errLine ("error: " ++ "" ++ "\n"), OutEvent.info (helpStr [c1Root])]) :=
  ⟨climan_C5.1 (fun _ _ _ _ => none) c1Root [c1Root] [] [] 0 rfl,
   climan_C5.2.1 3 [] c1Root [] [] [c1Root] rfl,
   climan_C5.2.2 c1Root [] [c1Root] ""
     (by rw [show cmdDepth c1Root = 3 from by simp [cmdDepth, c1Root, c1Add, c1Tree]]; rfl)⟩

theorem jsGet_nil (k : String) : jsGet [] k = none := rfl

theorem jsGet_cons (a : String × CVal) (l : OptMap) (k : String) :
    jsGet (a :: l) k = if a.1 = k then some a.2 else jsGet l k := by
  by_cases h : (a.1 == k) = true
  · simp [jsGet, List.find?_cons_of_pos _ h, beq_iff_eq.mp h]
  · simp only [Bool.not_eq_true] at h
    have h' : ¬ a.1 = k := by simpa using h
    simp [jsGet, List.find?_cons_of_neg, h, h']

theorem jsGet_append (m l2 : OptMap) (k : String) :
    jsGet (m ++ l2) k = (jsGet m k).or (jsGet l2 k) := by
  induction m with
  | nil => simp [jsGet_nil, Option.or]
  | cons hd tl ih =>
    rw [List.cons_append, jsGet_cons, jsGet_cons]
    by_cases h : hd.1 = k
    · simp [h, Option.or]
    · simp [h, ih]

theorem jsGet_eq_none_of_not_any (m : OptMap) (k : String)
    (h : m.any (fun p => p.1 == k) = false) : jsGet m k = none := by
  have hf : m.find? (fun p => p.1 == k) = none := by
    rw [List.find?_eq_none]
    intro p hp hc
    have : m.any (fun p => p.1 == k) = true := List.any_eq_true.mpr ⟨p, hp, hc⟩
    rw [this] at h; exact Bool.true_eq_false.mp h
  simp [jsGet, hf]

theorem jsGet_map_set_ne (m : OptMap) (k k' : String) (v : CVal) (h : ¬ k = k') :
    jsGet (m.map (fun p => if p.1 = k then (k, v) else p)) k' = jsGet m k' := by
  induction m with
  | nil => rfl
  | cons hd tl ih =>
    by_cases h1 : hd.1 = k <;>
      simp [jsGet_cons, h1, h, ih]

theorem jsGet_map_set_eq (m : OptMap) (k : String) (v : CVal)
    (h : m.any (fun p => p.1 == k) = true) :
    jsGet (m.map (fun p => if p.1 = k then (k, v) else p)) k = some v := by
  induction m with
  | nil => simp at h
  | cons hd tl ih =>
    by_cases h1 : hd.1 = k
    · simp [jsGet_cons, h1]
    · simp only [List.any_cons, Bool.or_eq_true, beq_iff_eq] at h
      rcases h with h | h
      · exact absurd h h1
      · simp [jsGet_cons, h1, ih (List.any_eq_true.mpr (by simpa using h))]

theorem jsGet_jsSet (m : OptMap) (k k' : String) (v : CVal) :
    jsGet (jsSet m k v) k' = if k = k' then some v else jsGet m k' := by
  have hfun : (fun (p : String × CVal) => if p.1 == k then (k, v) else p) =
      (fun p => if p.1 = k then (k, v) else p) := by
    funext p; by_cases h : p.1 = k <;> simp [h]
  unfold jsSet
  rw [hfun]
  by_cases hmem : m.any (fun p => p.1 == k) = true
  · rw [if_pos hmem]
    by_cases hk : k = k'
    · subst hk; simp [jsGet_map_set_eq m k v hmem]
    · simp [jsGet_map_set_ne m k k' v hk, hk]
  · simp only [Bool.not_eq_true] at hmem
    rw [if_neg (by simp [hmem])]
    rw [jsGet_append]
    by_cases hk : k = k'
    · subst hk
      rw [jsGet_eq_none_of_not_any m k hmem]
      simp [jsGet_cons, Option.or]
    · simp [jsGet_cons, hk, jsGet_nil, Option.or_none]

theorem jsGet_primeOption (opts : OptMap) (o : CliOption) (name : String) :
    jsGet (primeOption opts o) name =
      if o.name == name && primesEntry o then some (primeValue o) else jsGet opts name := by
  unfold primeOption primesEntry primeValue
  by_cases hd : truthyStr o.default = true
  · rw [if_pos hd, jsGet_jsSet]
    by_cases hn : o.name = name
    · subst hn; simp [hd]
    · simp [hd, hn]
  · rw [if_neg hd]
    by_cases hr : o.repeatable = true
    · rw [if_pos hr, jsGet_jsSet]
      by_cases hn : o.name = name
      · subst hn; simp [hd, hr]
      · simp [hd, hr, hn]
    · rw [if_neg hr]
      by_cases hb : (o.boolean && !o.handler) = true
      · rw [if_pos hb, jsGet_jsSet]
        by_cases hn : o.name = name
        · subst hn; simp [hd, hr, hb]
        · simp [hd, hr, hb, hn]
      · rw [if_neg hb]
        simp [hd, hr, hb]

/-- C3 (amended): descent priming initializes an entry for every option
of the node that has a truthy default, is repeatable, or is a boolean
without handler — unconditionally, so a value already present under the
same name (for example one consumed from a token for an option of an
ancestor) is overwritten by the value of the last such declaration; every
entry whose name matches no such option keeps its value. -/
theorem climan_C3_amended : ∀ (os : List CliOption) (opts : OptMap) (name : String),
    jsGet (primeOptions (some os) opts) name =
      match primedValueAfter os name with
      | some v => some v
      | none => jsGet opts name := by
  intro os
  induction os with
  | nil => intro opts name; rfl
  | cons o rest ih =>
    intro opts name
    have h1 : primeOptions (some (o :: rest)) opts =
        primeOptions (some rest) (primeOption opts o) := rfl
    rw [h1, ih]
    have h2 : primedValueAfter (o :: rest) name =
        match primedValueAfter rest name with
        | some v => some v
        | none =>
          if o.name == name && primesEntry o then some (primeValue o) else none := rfl
    rw [h2]
    cases hp : primedValueAfter rest name with
    | some v => rfl
    | none =>
      rw [jsGet_primeOption]
      cases hc : (o.name == name && primesEntry o) <;> simp

/-- C3 counterexample: the root declares plain option `x`, consumed as
`--x v`; the descendant leaf declares `x` with default `"d"`.  Priming at
the leaf overwrites the consumed value, so the handler sees `"d"`, not
`"v"` — the claimed already-present-entries-are-kept behavior fails. -/
theorem climan_C3_counterexample :
    parserRun 2 ["--x", "v", "c"] c3Root [] [] =
      some (RunResult.done [] [("x", CVal.str "d")] [c3Root, c3Leaf]) ∧
    CVal.str "d" ≠ CVal.str "v" := ⟨rfl, by simp⟩

/-- C4 counterexample: option `x` has default `"bad"` and a parser that
rejects it.  The parse succeeds: the reject value `null` is silently
stored and passed to the handler, so no parse error surfaces. -/
theorem climan_C4_counterexample :
    parserRun 1 [] c4Leaf [] [] =
      some (RunResult.done [] [("x", CVal.null)] [c4Leaf]) := rfl

/-- C4 (amended): a parser is indeed applied to option and parameter
defaults at descent priming; but a rejected default does not surface as
a parse error at the point of use — a rejected parameter default leaves
the slot at the `null` missing marker, so omitting the parameter fails
with `MissingParameter` at completion, while a rejected option default
is stored as `null` and passed to the handler without any error. -/
theorem climan_C4_amended :
    (∀ (opts : OptMap) (o : CliOption) (f : String → CVal), truthyStr o.default = true →
        o.parser = some f →
        jsGet (primeOption opts o) o.name = some (f (o.default.getD ""))) ∧
    (∀ (p : CliParameter) (f : String → CVal), truthyStr p.default = true →
        p.parser = some f → initParameter p = f (p.default.getD "")) ∧
    parserRun 1 [] c4ParamLeaf [] [] =
      some (RunResult.err [c4ParamLeaf]
        "no value provided for required Parameter \"p\"") := by
  refine ⟨?_, ?_, rfl⟩
  · intro opts o f hd hp
    unfold primeOption
    rw [if_pos hd, jsGet_jsSet]
    simp [applyParser, hp]
  · intro p f hd hp
    unfold initParameter
    rw [if_pos hd]
    simp [applyParser, hp]

/-- Witness for C4: the parser applied to the concrete default. -/
theorem climan_C4_witness :
    jsGet (primeOption [] c4Option) "x" = some (CliMan.parsers.enum ["good"] "bad") :=
  climan_C4_amended.1 [] c4Option _ rfl rfl

/-- C10: a declared `default` equal to `""` is falsy in the source, so
the option or parameter is primed exactly as if it had no default (no
entry, empty collection or `false` per the other flags), the parser is
never applied to the empty default, and a non-optional non-repeatable
parameter with default `""` is initialized to the missing marker: with
no supplied value the parse fails with `MissingParameter`. -/
theorem climan_C10 :
    (∀ (opts : OptMap) (o : CliOption), o.default = some "" →
        primeOption opts o = primeOption opts { o with default := none }) ∧
    (∀ (opts : OptMap) (o : CliOption) (f g : String → CVal), o.default = some "" →
        primeOption opts { o with parser := some f } =
          primeOption opts { o with parser := some g }) ∧
    (∀ (p : CliParameter), p.default = some "" →
        initParameter p = initParameter { p with default := none }) ∧
    (∀ (p : CliParameter) (f g : String → CVal), p.default = some "" →
        initParameter { p with parser := some f } =
          initParameter { p with parser := some g }) ∧
    parserRun 1 [] c10Leaf [] [] =
      some (RunResult.err [c10Leaf]
        "no value provided for required Parameter \"p\"") := by
  refine ⟨?_, ?_, ?_, ?_, rfl⟩
  · intro opts o h; simp [primeOption, truthyStr, h]
  · intro opts o f g h; simp [primeOption, truthyStr, h]
  · intro p h; simp [initParameter, truthyStr, h]
  · intro p f g h; simp [initParameter, truthyStr, h]

/-- Witness for C10 at concrete option and parameter declarations. -/
theorem climan_C10_witness :
    primeOption [] { name := "x", default := some "" } =
      primeOption [] { name := "x", default := none } ∧
    initParameter { name := "p", default := some "" } =
      initParameter { name := "p", default := none } :=
  ⟨climan_C10.1 [] { name := "x", default := some "" } rfl,
   climan_C10.2.2.1 { name := "p", default := some "" } rfl⟩

theorem toCamelAux_cons (c : Char) (r : List Char) :
    toCamelAux (c :: r) =
      if c = '-' then
        (match r with
         | [] => ['-']
         | c2 :: rest2 => jsToUpper c2 :: toCamelAux rest2)
      else c :: toCamelAux r := by rw [toCamelAux.eq_def]

theorem fromCamelAux_cons (c : Char) (r : List Char) :
    fromCamelAux (c :: r) =
      if 65 ≤ c.toNat && c.toNat ≤ 90 then '-' :: jsToLower c :: fromCamelAux r
      else c :: fromCamelAux r := by rw [fromCamelAux.eq_def]

theorem char_toNat_ofNat (n : Nat) (h : n < 55296) : (Char.ofNat n).toNat = n := by
  have hv : n.isValidChar := Or.inl h
  simp [Char.ofNat, hv]
  rfl

theorem camel_roundtrip_aux : ∀ (n : Nat) (l : List Char), l.length ≤ n →
    (∀ c ∈ l, c = '-' ∨ (97 ≤ c.toNat ∧ c.toNat ≤ 122)) →
    List.Chain' NoHH l →
    fromCamelAux (toCamelAux l) = l := by
  intro n
  induction n with
  | zero =>
    intro l hl _ _
    have : l = [] := List.eq_nil_of_length_eq_zero (Nat.le_zero.mp hl)
    subst this; rfl
  | succ n ih =>
    intro l hl hall hch
    match l with
    | [] => rfl
    | c :: rest =>
      by_cases hc : c = '-'
      · subst hc
        match rest with
        | [] => rfl
        | c2 :: rest2 =>
          have hr := (List.chain'_cons.mp hch).1
          have hch2 := (List.chain'_cons.mp hch).2
          have hc2 : ¬ c2 = '-' := fun h => hr ⟨rfl, h⟩
          have hlow : 97 ≤ c2.toNat ∧ c2.toNat ≤ 122 := by
            rcases hall c2 (by simp) with h | h
            · exact absurd h hc2
            · exact h
          have h1 : toCamelAux ('-' :: c2 :: rest2) = jsToUpper c2 :: toCamelAux rest2 := by
            rw [toCamelAux_cons, if_pos rfl]
          rw [h1]
          have hup : (jsToUpper c2).toNat = c2.toNat - 32 := by
            unfold jsToUpper
            rw [if_pos (by simp [hlow.1, hlow.2])]
            exact char_toNat_ofNat _ (by omega)
          have h2 : fromCamelAux (jsToUpper c2 :: toCamelAux rest2) =
              '-' :: jsToLower (jsToUpper c2) :: fromCamelAux (toCamelAux rest2) := by
            rw [fromCamelAux_cons, if_pos (by rw [hup]; simp; omega)]
          rw [h2]
          have h3 : jsToLower (jsToUpper c2) = c2 := by
            unfold jsToLower
            rw [if_pos (by rw [hup]; simp; omega), hup]
            have heq : c2.toNat - 32 + 32 = c2.toNat := by omega
            rw [heq, Char.ofNat_toNat]
          rw [h3]
          have h4 : fromCamelAux (toCamelAux rest2) = rest2 := by
            apply ih rest2 (by simp at hl; omega)
              (fun c hcm => hall c (by simp [hcm]))
            exact hch2.tail
          rw [h4]
      · have hlow : 97 ≤ c.toNat ∧ c.toNat ≤ 122 := by
          rcases hall c (by simp) with h | h
          · exact absurd h hc
          · exact h
        have h1 : toCamelAux (c :: rest) = c :: toCamelAux rest := by
          rw [toCamelAux_cons, if_neg hc]
        rw [h1]
        have h2 : fromCamelAux (c :: toCamelAux rest) = c :: fromCamelAux (toCamelAux rest) := by
          rw [fromCamelAux_cons, if_neg (by simp; omega)]
        rw [h2]
        have h3 : fromCamelAux (toCamelAux rest) = rest := by
          apply ih rest (by simp at hl; omega)
            (fun x hx => hall x (by simp [hx]))
          exact hch.tail
        rw [h3]

/-- C6: Name Codec round trip — for every hyphen-separated lowercase
token (all characters lowercase ASCII letters or hyphens, no two
consecutive hyphens), `fromCamel (toCamel s) = s`. -/
theorem climan_C6 (s : String)
    (h1 : ∀ c ∈ s.data, c = '-' ∨ (97 ≤ c.toNat ∧ c.toNat ≤ 122))
    (h2 : List.Chain' NoHH s.data) :
    fromCamel (toCamel s) = s := by
  show (⟨fromCamelAux (toCamelAux s.data)⟩ : String) = s
  rw [camel_roundtrip_aux s.data.length s.data (le_refl _) h1 h2]

/-- Witness for C6 at the token `sector-id`. -/
theorem climan_C6_witness : fromCamel (toCamel "sector-id") = "sector-id" :=
  climan_C6 "sector-id" (by decide) (by simp [List.chain'_cons, List.chain'_singleton])

theorem nodePairs_foldl (os : List CliOption) (a b : List (String × String)) :
    os.foldl (fun acc o =>
      let pr := (helpOption o, o.help.getD "")
      if o.required then (acc.1 ++ [pr], acc.2) else (acc.1, acc.2 ++ [pr])) (a, b) =
    (a ++ (os.filter (fun o => o.required)).map optPairSpec,
     b ++ (os.filter (fun o => !o.required)).map optPairSpec) := by
  induction os generalizing a b with
  | nil => simp
  | cons o rest ih =>
    simp only [List.foldl_cons]
    by_cases h : o.required = true
    · rw [if_pos h]
      rw [ih]
      simp [List.filter_cons, h, optPairSpec]
    · rw [if_neg h]
      rw [ih]
      simp only [Bool.not_eq_true] at h
      simp [List.filter_cons, h, optPairSpec]

theorem nodePairs_eq (os : List CliOption) :
    nodePairs os = ((os.filter (fun o => o.required)).map optPairSpec,
                    (os.filter (fun o => !o.required)).map optPairSpec) := by
  unfold nodePairs
  rw [nodePairs_foldl]
  simp

theorem helpGroupsAux_spec (lastIdx : Nat) : ∀ (l : List (Nat × CliCommand)),
    (helpGroupsAux lastIdx l).1 = requiredPairsSpec l ∧
    (helpGroupsAux lastIdx l).2.1 = nonReqGroupsSpec lastIdx l := by
  intro l
  induction l with
  | nil => exact ⟨rfl, rfl⟩
  | cons ic rest ih =>
    obtain ⟨ih1, ih2⟩ := ih
    rcases hrec : helpGroupsAux lastIdx rest with ⟨r1, r2, r3⟩
    rw [hrec] at ih1 ih2
    dsimp only at ih1 ih2
    cases hoc : cmdOptions ic.2 with
    | none =>
      constructor
      · simp only [helpGroupsAux, hrec, hoc]
        simp only [requiredPairsSpec, hoc, Option.getD_none, List.filter_nil, List.map_nil,
          List.nil_append]
        exact ih1
      · simp only [helpGroupsAux, hrec, hoc]
        simp only [nonReqGroupsSpec, hoc, Option.getD_none, List.filter_nil, List.map_nil]
        simpa using ih2
    | some os =>
      constructor
      · simp only [helpGroupsAux, hrec, hoc, nodePairs_eq]
        simp only [requiredPairsSpec, hoc, Option.getD_some]
        rw [ih1]
      · simp only [helpGroupsAux, hrec, hoc, nodePairs_eq]
        simp only [nonReqGroupsSpec, hoc, Option.getD_some]
        rw [← ih2]
        by_cases hp : ((os.filter (fun o => !o.required)).map optPairSpec) = []
        · rw [if_pos hp, hp]
          simp
        · rw [if_neg hp]
          have hlen : ¬ ((os.filter (fun o => !o.required)).map optPairSpec).length = 0 := by
            simpa [List.length_eq_zero] using hp
          have hex : ∃ x ∈ os, x.required = false := by
            by_contra hno
            push_neg at hno
            apply hp
            have hfil : os.filter (fun o => !o.required) = [] := by
              rw [List.filter_eq_nil_iff]
              intro a ha
              simp [hno a ha]
            simp [hfil]
          simp only [groupLabel]
          simp [hlen, hex]

/-- C8: for every path, the options blocks built by `helpOptions` are
exactly as specified — one first `Required options` group collecting, in
a scan from the current node out to the root, every required option
(each appearance once, declaration order preserved; the group omitted
when empty), then one group per node with non-required options in the
same scan order, labeled `Options` for the current node, `Global
options` for the root, and with the ancestor name otherwise, with empty
groups omitted entirely. -/
theorem climan_C8 (path : List CliCommand) : helpGroups path = specGroups path := by
  unfold helpGroups specGroups pathScan
  obtain ⟨h1, h2⟩ := helpGroupsAux_spec (path.length - 1) (path.enum.reverse)
  rcases hrec : helpGroupsAux (path.length - 1) (path.enum.reverse) with ⟨r1, r2, r3⟩
  rw [hrec] at h1 h2
  dsimp only at h1 h2
  subst h1
  subst h2
  by_cases hr : requiredPairsSpec (path.enum.reverse) = []
  · simp [hr]
  · have hlen : ¬ (requiredPairsSpec (path.enum.reverse)).length = 0 := by
      simpa [List.length_eq_zero] using hr
    simp [hr, hlen]

/-- C1: for the concrete tree (root → Branch `add` declaring required
integer option `sectorId` with symbol `s` → Leaf `tree` declaring `type`
(enum, default `pine`) and `count` (range `[1,10)` integer, default `1`)):
resolving `add -s 4 tree -t oak` invokes the handler of `tree` exactly once —
the parse terminates in the single `done` outcome, whose path ends at
`tree` — with an options map holding `sectorId = 4`, `type = "oak"` and
`count = 1`; and resolving `add tree` invokes no handler and fails with
the `MissingOption` error whose message names `sector-id`. -/
theorem climan_C1 :
    parserRun 3 ["add", "-s", "4", "tree", "-t", "oak"] c1Root [] [] =
      some (.done [] [("sectorId", .int 4), ("type", .str "oak"), ("count", .int 1)]
        [c1Root, c1Add, c1Tree]) ∧
    parserRun 3 ["add", "tree"] c1Root [] [] =
      some (.err [c1Root, c1Add, c1Tree] "missing required option \"--sector-id\"") :=
  ⟨rfl, rfl⟩

/-- C2 (code bug): the `number` parser does not reject every string
outside the claimed shape.  In the source regex
`^[+-]?[.]\d+|[+-]?\d+([.]\d+)?$` the `^` anchors only the first
alternative and the `$` only the second, so `".5x"` (matching the first
alternative at the start) is accepted and parsed as `0.5`, and `"x1"`
(whose tail `"1"` matches the second alternative) is accepted and parsed
as `NaN` — while neither string has the claimed shape. -/
theorem climan_C2_eval :
    specNumberShape ".5x" = false ∧ CliMan.parsers.number ".5x" = CVal.rat (mkRat 1 2) ∧
    specNumberShape "x1" = false ∧ CliMan.parsers.number "x1" = CVal.nan :=
  ⟨rfl, rfl, rfl, rfl⟩
